import Mathlib

/-!
Verification development for the Excel-to-ICS converter script.

The script's core logic lives in two functions:
  * `convert_xlsx_to_ics` — loads a spreadsheet, fuzzy-matches the four
    required columns, forward-fills the course column, and iterates 7-day
    windows from each row's start date to its end date;
  * `create_events_from_pattern` — parses one meeting-pattern cell
    (lines of `days|start-end|location`) and emits one event per matched
    weekday per window.

This file shallowly embeds that logic.  Python strings are embedded as
`List Char`; `datetime.date` values as day numbers (days since 0000-03-01
in the proleptic Gregorian calendar, so `+ timedelta(days = n)` is `+ n`
and `date.weekday()` is `(d + 2) % 7`); fallible code returns
`Except String _` (a raised `ValueError` is `Except.error`).
-/

set_option maxRecDepth 10000

deriving instance DecidableEq for Except

namespace Script

/-! ## Python string primitives -/

/-- Python whitespace characters recognised by `str.strip` and the `\s`
regex class (ASCII subset, which is all the script ever strips). -/
def isSpaceChar (c : Char) : Bool :=
  c = ' ' || c = '\t' || c = '\n' || c = '\r' || c = '\x0b' || c = '\x0c'

/-- Python `s.split(sep)` for a one-character separator: always returns at
least one (possibly empty) field. -/
def splitChar (sep : Char) : List Char → List (List Char)
  | [] => [[]]
  | c :: rest =>
    if c = sep then [] :: splitChar sep rest
    else
      match splitChar sep rest with
      | [] => [[c]]
      | h :: t => (c :: h) :: t

/-- Python `s.strip()`: drop leading and trailing whitespace. -/
def pyStrip (l : List Char) : List Char :=
  ((l.dropWhile isSpaceChar).reverse.dropWhile isSpaceChar).reverse

/-- Python `s.splitlines()` restricted to `\n` separators (the only line
separator occurring in the spreadsheet cells): like splitting on `\n`
but without a trailing empty line. -/
def splitlines (l : List Char) : List (List Char) :=
  if l.isEmpty then []
  else if l.getLast? = some '\n' then (splitChar '\n' l).dropLast
  else splitChar '\n' l

/-- Python `s.lower()` (ASCII). -/
def toLowerL (l : List Char) : List Char := l.map Char.toLower

/-- `leadsWith needle hay` is true when `needle` is an initial segment of
`hay` (helper for Python's substring test). -/
def leadsWith : List Char → List Char → Bool
  | [], _ => true
  | _ :: _, [] => false
  | x :: xs, y :: ys => x = y && leadsWith xs ys

/-- Python `needle in hay` (substring containment). -/
def hasSub (needle : List Char) : List Char → Bool
  | [] => leadsWith needle []
  | c :: rest => leadsWith needle (c :: rest) || hasSub needle rest

/-! ## Dates

`dayNumber y m d` is the standard civil-from-days algorithm (era of 400
years starting 0000-03-01).  `dayNumber 1970 1 1 = 719468`, a Thursday,
hence `weekdayOf` below agrees with Python's `date.weekday()`
(Monday = 0). -/

def dayNumber (y m d : Nat) : Nat :=
  let yAdj := if m ≤ 2 then y - 1 else y
  let era := yAdj / 400
  let yoe := yAdj % 400
  let mp := (m + 9) % 12
  let doy := (153 * mp + 2) / 5 + d - 1
  let doe := yoe * 365 + yoe / 4 - yoe / 100 + doy
  era * 146097 + doe

/-- Python `date.weekday()`: Monday = 0 … Sunday = 6. -/
def weekdayOf (d : Nat) : Nat := (d + 2) % 7

/-- Line 95 of the script:
`event_date = week_start_date + timedelta(days=(weekday - week_start_date.weekday()) % 7)`.
Python's `%` on the possibly-negative difference is mirrored with a `+ 7`
(both operands lie in `0..6`). -/
def computeDate (ws w : Nat) : Nat := ws + (w + 7 - weekdayOf ws) % 7

/-! ## Day-token decoding (script lines 88–93 and `DAY_MAP`, line 13)

`DAY_MAP = {"M":0, "T":1, "W":2, "TH":3, "F":4, "S":5, "SU":6}`.
The loop first rewrites `"TH"` to `"H"` (Python `str.replace`, left to
right, non-overlapping), then walks the result character by character:
an `'H'` is looked up as `"TH"` (3); any other character is uppercased
and looked up as a single-character key, so only `M T W F S` (in either
case) can match — `"SU"` is unreachable and a lone `'U'` or lowercase
`'h'` misses the map and is skipped. -/

/-- Python `days.replace("TH", "H")` on the character list. -/
def replaceTH : List Char → List Char
  | [] => []
  | [c] => [c]
  | a :: b :: l =>
    if a = 'T' ∧ b = 'H' then 'H' :: replaceTH l
    else a :: replaceTH (b :: l)

/-- The per-character lookup of lines 90–91:
`day_char = "TH" if day_char == "H" else day_char;`
`weekday = DAY_MAP.get(day_char.upper())`. -/
def charDay (c : Char) : Option Nat :=
  if c = 'H' then some 3
  else if c.toUpper = 'M' then some 0
  else if c.toUpper = 'T' then some 1
  else if c.toUpper = 'W' then some 2
  else if c.toUpper = 'F' then some 4
  else if c.toUpper = 'S' then some 5
  else none

/-- The weekday list a day token decodes to, in processing order: the
`"TH"→"H"` rewrite followed by the per-character lookup with misses
skipped. -/
def decode_days (days : List Char) : List Nat :=
  (replaceTH days).filterMap charDay

/-- Canonical letters for each weekday, the inverse reading of `DAY_MAP`
(used to state the decode/re-encode roundtrip from the spec). -/
def encodeDay : Nat → List Char
  | 0 => ['M']
  | 1 => ['T']
  | 2 => ['W']
  | 3 => ['T', 'H']
  | 4 => ['F']
  | 5 => ['S']
  | 6 => ['S', 'U']
  | _ => []

def encodeDays : List Nat → List Char
  | [] => []
  | d :: t => encodeDay d ++ encodeDays t

/-! ## 12-hour time parsing (`datetime.strptime(s, "%I:%M %p")`)

CPython compiles this format to the anchored regex
`(1[0-2]|0[1-9]|[1-9]):([0-5]\d|\d)\s+(AM|PM)` (the `%p` alternatives
case-insensitive, whitespace in the format matching one or more
whitespace characters) and rejects any unconverted trailing data; with
`%p`, hour 12 AM becomes 0 and hours 1–11 PM gain 12. -/

def digitVal (c : Char) : Nat := c.toNat - '0'.toNat

def isDigitChar (c : Char) : Bool := '0' ≤ c && c ≤ '9'

/-- Match `1[0-2]|0[1-9]|[1-9]` at the front of the input. -/
def readHour : List Char → Option (Nat × List Char)
  | [] => none
  | c :: rest =>
    if c = '1' then
      match rest with
      | d :: rest2 =>
        if '0' ≤ d && d ≤ '2' then some (10 + digitVal d, rest2)
        else some (1, d :: rest2)
      | [] => some (1, [])
    else if c = '0' then
      match rest with
      | d :: rest2 =>
        if '1' ≤ d && d ≤ '9' then some (digitVal d, rest2)
        else none
      | [] => none
    else if '2' ≤ c && c ≤ '9' then some (digitVal c, rest)
    else none

/-- Match `[0-5]\d|\d` at the front of the input. -/
def readMinute : List Char → Option (Nat × List Char)
  | [] => none
  | c :: rest =>
    if '0' ≤ c && c ≤ '5' then
      match rest with
      | d :: rest2 =>
        if isDigitChar d then some (10 * digitVal c + digitVal d, rest2)
        else some (digitVal c, d :: rest2)
      | [] => some (digitVal c, [])
    else if isDigitChar c then some (digitVal c, rest)
    else none

/-- `datetime.strptime(s, "%I:%M %p").time()` as `(hour24, minute)`;
`none` models the raised `ValueError`. -/
def parse_time (s : List Char) : Option (Nat × Nat) :=
  match readHour s with
  | none => none
  | some (h, r1) =>
    match r1 with
    | ':' :: r2 =>
      match readMinute r2 with
      | none => none
      | some (m, r3) =>
        match r3 with
        | [] => none
        | c :: r4 =>
          if isSpaceChar c then
            match r4.dropWhile isSpaceChar with
            | [p, q] =>
              if (p = 'A' || p = 'a') && (q = 'M' || q = 'm') then
                some (if h = 12 then 0 else h, m)
              else if (p = 'P' || p = 'p') && (q = 'M' || q = 'm') then
                some (if h = 12 then 12 else h + 12, m)
              else none
            | _ => none
          else none
    | _ => none

/-! ## Events and the pattern expander (script lines 77–109) -/

/-- `datetime.combine(event_date, parsed_time)`. -/
structure PyDateTime where
  date : Nat
  hour : Nat
  minute : Nat
deriving DecidableEq, Repr

/-- One icalendar `Event` as populated at lines 103–107. -/
structure Event where
  summary : List Char
  dtstart : PyDateTime
  dtend : PyDateTime
  description : List Char
deriving DecidableEq, Repr

/-- Lines 100–107: the event appended for one matched weekday. -/
def mkEvent (course line location : List Char) (d sh sm eh em : Nat) : Event :=
  { summary := course
    dtstart := ⟨d, sh, sm⟩
    dtend := ⟨d, eh, em⟩
    description := "Meeting Pattern: ".data ++ line ++ " | ".data ++ location }

def errUnpack : String := "ValueError: values to unpack"
def errStrptime : String := "ValueError: time data does not match format"

/-- The inner `for day_char in temp_days` loop (lines 89–108), with the
running `events` list as accumulator.  Note the script calls `strptime`
inside this loop, so a malformed time string only raises once some
matched weekday's computed date falls within the semester. -/
def dayLoop (course line location sts ets : List Char) (ws se : Nat) :
    List Event → List Char → Except String (List Event)
  | acc, [] => .ok acc
  | acc, c :: rest =>
    match charDay c with
    | none => dayLoop course line location sts ets ws se acc rest
    | some w =>
      if se < computeDate ws w then
        dayLoop course line location sts ets ws se acc rest
      else
        match parse_time sts with
        | none => .error errStrptime
        | some (sh, sm) =>
          match parse_time ets with
          | none => .error errStrptime
          | some (eh, em) =>
            dayLoop course line location sts ets ws se
              (acc ++ [mkEvent course line location (computeDate ws w) sh sm eh em]) rest

/-- Lines 80–108 for a single pattern line: split on `|`, strip fields,
skip the line when fewer than 2 fields, unpack the time range (raising
when it does not split on `-` into exactly two pieces), then run the
weekday loop. -/
def processLine (course : List Char) (ws se : Nat) (line : List Char) :
    Except String (List Event) :=
  match (splitChar '|' line).map pyStrip with
  | [] => .ok []
  | [_] => .ok []
  | days :: times :: rest =>
    match (splitChar '-' times).map pyStrip with
    | [sts, ets] =>
      dayLoop course line (rest.headD []) sts ets ws se [] (replaceTH days)
    | _ => .error errUnpack

/-- The `for line in pattern_text.splitlines()` loop, accumulating events
across lines; a raise from any line aborts the whole call. -/
def linesLoop (course : List Char) (ws se : Nat) :
    List Event → List (List Char) → Except String (List Event)
  | acc, [] => .ok acc
  | acc, l :: rest =>
    match processLine course ws se l with
    | .error e => .error e
    | .ok evs => linesLoop course ws se (acc ++ evs) rest

/-- `create_events_from_pattern(course, pattern_text, week_start_date,
semester_end_date)` (lines 77–109). -/
def create_events_from_pattern (course pattern_text : List Char) (ws se : Nat) :
    Except String (List Event) :=
  linesLoop course ws se [] (splitlines pattern_text)

/-- The `while week_start <= end_dt` loop of lines 61–66, with an explicit
fuel argument that bounds the iteration count; `weekLoop` below supplies
enough fuel, making this the exact loop. -/
def weekAux (course pat : List Char) (end_dt : Nat) :
    Nat → Nat → Except String (List Event)
  | 0, _ => .ok []
  | fuel + 1, ws =>
    if ws ≤ end_dt then
      match create_events_from_pattern course pat ws end_dt with
      | .error e => .error e
      | .ok evs =>
        match weekAux course pat end_dt fuel (ws + 7) with
        | .error e => .error e
        | .ok rest => .ok (evs ++ rest)
    else .ok []

/-- Expansion of one schedule row across its whole date range: the week
loop of `convert_xlsx_to_ics` (lines 60–66).  Each iteration advances
`week_start` by 7 days, so `end_dt + 1 - ws` iterations always suffice. -/
def weekLoop (course pat : List Char) (ws end_dt : Nat) : Except String (List Event) :=
  weekAux course pat end_dt (end_dt + 1 - ws) ws

/-! ## The schedule table loader (script lines 18–42) -/

/-- One classified header: lines 24–33, the substring checks applied to
the stripped, lowercased header in priority order. -/
def classifyHeader (col : List Char) : Option (List Char) :=
  let cl := toLowerL col
  if hasSub "course".data cl then some "Course Listing".data
  else if hasSub "pattern".data cl || hasSub "meeting".data cl then
    some "Meeting Patterns".data
  else if hasSub "start".data cl then some "Start Date".data
  else if hasSub "end".data cl then some "End Date".data
  else none

def requiredCols : List (List Char) :=
  ["Course Listing".data, "Meeting Patterns".data, "Start Date".data, "End Date".data]

/-- The column names after `df.columns.str.strip()` and
`df.rename(columns=header_map)`: a header not matched by any rule keeps
its (stripped) name. -/
def renamedColumns (cols : List (List Char)) : List (List Char) :=
  cols.map fun c => (classifyHeader (pyStrip c)).getD (pyStrip c)

/-- Line 38: `missing = [col for col in required_cols if col not in df.columns]`. -/
def missingColumns (cols : List (List Char)) : List (List Char) :=
  requiredCols.filter fun r => decide (¬ r ∈ renamedColumns cols)

/-- One spreadsheet data row as the loader sees it (`none` = missing/NaN
cell; dates already as day numbers, matching `pd.to_datetime(...).date()`). -/
structure RawRow where
  course : Option (List Char)
  patternText : Option (List Char)
  startD : Option Nat
  endD : Option Nat
deriving DecidableEq, Repr

def defaultRow : RawRow := ⟨none, none, none, none⟩

/-- `df['Course Listing'] = df['Course Listing'].ffill()` (line 42):
each missing course cell takes the most recent earlier value (carried in
`last`). -/
def ffillRows (last : Option (List Char)) : List RawRow → List RawRow
  | [] => []
  | r :: t =>
    match r.course with
    | some v => { r with course := some v } :: ffillRows (some v) t
    | none => { r with course := last } :: ffillRows last t

/-- Lines 18–42 up to the start of the row loop: resolve headers, fail
with the list of unresolved required columns, otherwise forward-fill the
course column and hand the rows on. -/
def loadTable (cols : List (List Char)) (rows : List RawRow) :
    Except (List (List Char)) (List RawRow) :=
  match missingColumns cols with
  | [] => .ok (ffillRows none rows)
  | m :: ms => .error (m :: ms)

/-! ## Helper notions used only to state claims -/

/-- Whether an `Except` computation raised. -/
def isError {ε α : Type} : Except ε α → Bool
  | .error _ => true
  | .ok _ => false

/-- The event (if any) the weekday loop emits for one character of the
rewritten day token, given already-parsed times: the specification-side
description of one `(window, weekday)` pair. -/
def emitFor (course line location : List Char) (ws se tsh tsm teh tem : Nat)
    (c : Char) : Option Event :=
  match charDay c with
  | none => none
  | some w =>
    if computeDate ws w ≤ se then
      some (mkEvent course line location (computeDate ws w) tsh tsm teh tem)
    else none

/-- The last non-missing course value strictly before index `i`: the
value forward-fill is specified to propagate. -/
def nearestPrevCourse (rows : List RawRow) (i : Nat) : Option (List Char) :=
  ((rows.take i).filterMap (fun r => r.course)).getLast?

/-- First-biased choice on options (used to state the forward-fill shape). -/
def firstSome {α : Type} : Option α → Option α → Option α
  | some x, _ => some x
  | none, b => b

/-! ## General helper lemmas -/

/-- Two-step list induction matching the recursion of `replaceTH`. -/
theorem twoStepInduction {P : List Char → Prop} (h0 : P []) (h1 : ∀ c, P [c])
    (h2 : ∀ a b l, P l → P (b :: l) → P (a :: b :: l)) (l : List Char) : P l := by
  have key : ∀ n l, List.length l ≤ n → P l := by
    intro n
    induction n with
    | zero =>
      intro l hl
      cases l with
      | nil => exact h0
      | cons a t => simp at hl
    | succ n ih =>
      intro l hl
      cases l with
      | nil => exact h0
      | cons a t =>
        cases t with
        | nil => exact h1 a
        | cons b r =>
          refine h2 a b r (ih r ?_) (ih (b :: r) ?_) <;> simp at hl ⊢ <;> omega
  exact key l.length l le_rfl

theorem replaceTH_cons_cons (a b : Char) (l : List Char) :
    replaceTH (a :: b :: l) =
      if a = 'T' ∧ b = 'H' then 'H' :: replaceTH l else a :: replaceTH (b :: l) := by
  rfl

/-- A character other than `'T'` at the head never starts a `"TH"` match. -/
theorem replaceTH_cons_of_ne (a : Char) (l : List Char) (h : a ≠ 'T') :
    replaceTH (a :: l) = a :: replaceTH l := by
  cases l with
  | nil => rfl
  | cons b r =>
    rw [replaceTH_cons_cons, if_neg]
    rintro ⟨rfl, -⟩
    exact h rfl

theorem charDay_T : charDay 'T' = some 1 := by decide

theorem charDay_H : charDay 'H' = some 3 := by decide

theorem charDay_none_ne_T {c : Char} (h : charDay c = none) : c ≠ 'T' := by
  rintro rfl
  rw [charDay_T] at h
  cases h

theorem charDay_none_ne_H {c : Char} (h : charDay c = none) : c ≠ 'H' := by
  rintro rfl
  rw [charDay_H] at h
  cases h

/-- A character that can neither start nor finish a `"TH"` digram passes
through the rewrite untouched and splits it into independent halves. -/
theorem replaceTH_middle (c : Char) (hT : c ≠ 'T') (hH : c ≠ 'H') (s2 : List Char) :
    ∀ s1, replaceTH (s1 ++ c :: s2) = replaceTH s1 ++ c :: replaceTH s2 := by
  intro s1
  induction s1 using twoStepInduction with
  | h0 =>
    rw [List.nil_append, replaceTH_cons_of_ne c s2 hT]
    rfl
  | h1 d =>
    rw [List.cons_append, List.nil_append, replaceTH_cons_cons, if_neg]
    · rw [replaceTH_cons_of_ne c s2 hT]
      rfl
    · rintro ⟨-, rfl⟩
      exact hH rfl
  | h2 a b l ihl ihbl =>
    rw [List.cons_append, List.cons_append, replaceTH_cons_cons,
      replaceTH_cons_cons a b l]
    by_cases hab : a = 'T' ∧ b = 'H'
    · rw [if_pos hab, if_pos hab, ihl]
      rfl
    · rw [if_neg hab, if_neg hab]
      rw [← List.cons_append, ihbl]
      rfl

/-- An `'H'` whose predecessor is not `'T'` survives the rewrite as a free
`'H'` and splits it into independent halves. -/
theorem replaceTH_append_H :
    ∀ s1, s1.getLast? ≠ some 'T' →
      ∀ s2, replaceTH (s1 ++ 'H' :: s2) = replaceTH s1 ++ 'H' :: replaceTH s2 := by
  intro s1
  induction s1 using twoStepInduction with
  | h0 =>
    intro _ s2
    rw [List.nil_append]
    exact replaceTH_cons_of_ne 'H' s2 (by decide)
  | h1 d =>
    intro hd s2
    have hdT : d ≠ 'T' := by
      intro h
      exact hd (by simp [h])
    rw [List.cons_append, List.nil_append, replaceTH_cons_cons, if_neg]
    · rw [replaceTH_cons_of_ne 'H' s2 (by decide)]
      rfl
    · rintro ⟨rfl, -⟩
      exact hdT rfl
  | h2 a b l ihl ihbl =>
    intro h s2
    have hlast : (b :: l).getLast? ≠ some 'T' := by
      rwa [List.getLast?_cons_cons] at h
    rw [List.cons_append, List.cons_append, replaceTH_cons_cons,
      replaceTH_cons_cons a b l]
    by_cases hab : a = 'T' ∧ b = 'H'
    · have hl : l.getLast? ≠ some 'T' := by
        cases l with
        | nil => simp
        | cons x xs => rwa [List.getLast?_cons_cons] at hlast
      rw [if_pos hab, if_pos hab, ihl hl]
      rfl
    · rw [if_neg hab, if_neg hab]
      rw [← List.cons_append, ihbl hlast]
      rfl

/-- Every weekday the per-character lookup can return lies in `0..5`:
Sunday (6) is unreachable because `"SU"` is two characters. -/
theorem charDay_lt {c : Char} {w : Nat} (h : charDay c = some w) : w < 6 := by
  unfold charDay at h
  split_ifs at h <;> (cases h; omega)

theorem decode_days_lt (s : List Char) : ∀ w ∈ decode_days s, w < 6 := by
  intro w hw
  unfold decode_days at hw
  obtain ⟨c, -, hc⟩ := List.mem_filterMap.mp hw
  exact charDay_lt hc

/-- The concatenated re-encoding of weekdays in `0..5` never starts with
`'H'` (each letter block starts with `M`, `T`, `W`, `F` or `S`). -/
theorem encodeDays_head_ne_H (ds : List Nat) (hds : ∀ w ∈ ds, w < 6) :
    ∀ b l, encodeDays ds = b :: l → b ≠ 'H' := by
  cases ds with
  | nil => intro b l h; cases h
  | cons d t =>
    intro b l h
    have hd : d < 6 := hds d (by simp)
    interval_cases d <;>
      (simp only [encodeDays, encodeDay, List.cons_append, List.nil_append,
        List.cons.injEq] at h
       rw [← h.1]
       decide)

/-- Decoding the canonical re-encoding of weekdays in `0..5` recovers the
same list. -/
theorem decode_encode (ds : List Nat) (hds : ∀ w ∈ ds, w < 6) :
    decode_days (encodeDays ds) = ds := by
  induction ds with
  | nil => rfl
  | cons d t ih =>
    have hd : d < 6 := hds d (by simp)
    have ht : ∀ w ∈ t, w < 6 := fun w hw => hds w (by simp [hw])
    have iht := ih ht
    unfold decode_days at iht ⊢
    interval_cases d
    · rw [show encodeDays (0 :: t) = 'M' :: encodeDays t from rfl,
        replaceTH_cons_of_ne 'M' _ (by decide)]
      simp [iht, charDay]
    · rw [show encodeDays (1 :: t) = 'T' :: encodeDays t from rfl]
      have hne : replaceTH ('T' :: encodeDays t) = 'T' :: replaceTH (encodeDays t) := by
        cases hE : encodeDays t with
        | nil => rfl
        | cons b l =>
          rw [replaceTH_cons_cons, if_neg]
          rintro ⟨-, rfl⟩
          exact encodeDays_head_ne_H t ht _ l hE rfl
      rw [hne]
      simp [iht, charDay]
    · rw [show encodeDays (2 :: t) = 'W' :: encodeDays t from rfl,
        replaceTH_cons_of_ne 'W' _ (by decide)]
      simp [iht, charDay]
    · rw [show encodeDays (3 :: t) = 'T' :: 'H' :: encodeDays t from rfl,
        replaceTH_cons_cons, if_pos ⟨rfl, rfl⟩]
      simp [iht, charDay]
    · rw [show encodeDays (4 :: t) = 'F' :: encodeDays t from rfl,
        replaceTH_cons_of_ne 'F' _ (by decide)]
      simp [iht, charDay]
    · rw [show encodeDays (5 :: t) = 'S' :: encodeDays t from rfl,
        replaceTH_cons_of_ne 'S' _ (by decide)]
      simp [iht, charDay]

/-! ## Claim C2 -/

/-- C2: a character the per-character lookup does not recognise (which
includes every character outside the codes `M T W F S SU TH` of
`DAY_MAP`, in either case) contributes no weekday, raises nothing, and
the characters before and after it are still decoded: the decode of the
whole token is the decode of the two halves around it. -/
theorem c2_theorem (s1 : List Char) (c : Char) (s2 : List Char)
    (h : charDay c = none) :
    decode_days (s1 ++ c :: s2) = decode_days s1 ++ decode_days s2 := by
  unfold decode_days
  rw [replaceTH_middle c (charDay_none_ne_T h) (charDay_none_ne_H h) s2 s1,
    List.filterMap_append, List.filterMap_cons, h]

/-- Witness for C2 at the concrete token `"MXW"`: `'X'` is skipped and
`M`, `W` still decode. -/
theorem c2_witness :
    decode_days (['M'] ++ 'X' :: ['W']) = decode_days ['M'] ++ decode_days ['W'] :=
  c2_theorem ['M'] 'X' ['W'] (by decide)

/-! ## Claim C7 -/

/-- C7: `"TTH"` decodes greedily to Tuesday–Thursday (never `"T"` then a
stray `"H"`), and for every day token, decoding and then re-encoding the
matched weekdays as canonical letters decodes back to the same weekday
list (the roundtrip can never hit the unreachable Sunday entry, by
`decode_days_lt`). -/
theorem c7_theorem :
    decode_days "TTH".data = [1, 3] ∧
    ∀ days : List Char, decode_days (encodeDays (decode_days days)) = decode_days days := by
  constructor
  · decide
  · intro days
    exact decode_encode (decode_days days) (decode_days_lt days)

/-! ## Claim C9 -/

/-- C9: an `'H'` not immediately preceded by `'T'` is decoded as Thursday
(weekday 3): the `"TH"→"H"` rewrite leaves it alone and the
per-character lookup maps the bare `'H'` back to `DAY_MAP["TH"]`. -/
theorem c9_theorem (s1 s2 : List Char) (h : s1.getLast? ≠ some 'T') :
    decode_days (s1 ++ 'H' :: s2) = decode_days s1 ++ 3 :: decode_days s2 := by
  unfold decode_days
  rw [replaceTH_append_H s1 h s2, List.filterMap_append, List.filterMap_cons,
    charDay_H]

/-- Witness for C9: the token `"H"` alone decodes to `[Thursday]`. -/
theorem c9_witness : decode_days ['H'] = [3] := by
  have h := c9_theorem [] [] (by decide)
  simpa using h

/-! ## Unfolding equations for the expander loops -/

theorem dayLoop_nil (course line location sts ets : List Char) (ws se : Nat)
    (acc : List Event) :
    dayLoop course line location sts ets ws se acc [] = .ok acc := rfl

theorem dayLoop_cons (course line location sts ets : List Char) (ws se : Nat)
    (acc : List Event) (c : Char) (rest : List Char) :
    dayLoop course line location sts ets ws se acc (c :: rest) =
      match charDay c with
      | none => dayLoop course line location sts ets ws se acc rest
      | some w =>
        if se < computeDate ws w then
          dayLoop course line location sts ets ws se acc rest
        else
          match parse_time sts with
          | none => .error errStrptime
          | some (sh, sm) =>
            match parse_time ets with
            | none => .error errStrptime
            | some (eh, em) =>
              dayLoop course line location sts ets ws se
                (acc ++ [mkEvent course line location (computeDate ws w) sh sm eh em])
                rest := rfl

theorem linesLoop_nil (course : List Char) (ws se : Nat) (acc : List Event) :
    linesLoop course ws se acc [] = .ok acc := rfl

theorem linesLoop_cons (course : List Char) (ws se : Nat) (acc : List Event)
    (l : List Char) (rest : List (List Char)) :
    linesLoop course ws se acc (l :: rest) =
      match processLine course ws se l with
      | .error e => .error e
      | .ok evs => linesLoop course ws se (acc ++ evs) rest := rfl

/-! ## The weekday loop refined to a filterMap when times parse -/

/-- When both time strings parse, the weekday loop never raises: it
appends to the accumulator exactly the events described by `emitFor`. -/
theorem dayLoop_ok (course line location sts ets : List Char) (ws se : Nat)
    (tsh tsm teh tem : Nat)
    (hs : parse_time sts = some (tsh, tsm)) (he : parse_time ets = some (teh, tem)) :
    ∀ td acc, dayLoop course line location sts ets ws se acc td =
      .ok (acc ++ td.filterMap (emitFor course line location ws se tsh tsm teh tem)) := by
  intro td
  induction td with
  | nil =>
    intro acc
    rw [dayLoop_nil]
    simp
  | cons c rest ih =>
    intro acc
    cases hcd : charDay c with
    | none =>
      have hemit : emitFor course line location ws se tsh tsm teh tem c = none := by
        simp only [emitFor, hcd]
      rw [dayLoop_cons]
      simp only [hcd, List.filterMap_cons, hemit]
      exact ih acc
    | some w =>
      by_cases hlt : se < computeDate ws w
      · have hemit : emitFor course line location ws se tsh tsm teh tem c = none := by
          simp only [emitFor, hcd]
          rw [if_neg (Nat.not_le.mpr hlt)]
        rw [dayLoop_cons]
        simp only [hcd, if_pos hlt, List.filterMap_cons, hemit]
        exact ih acc
      · have hle : computeDate ws w ≤ se := Nat.not_lt.mp hlt
        have hemit : emitFor course line location ws se tsh tsm teh tem c =
            some (mkEvent course line location (computeDate ws w) tsh tsm teh tem) := by
          simp only [emitFor, hcd]
          rw [if_pos hle]
        rw [dayLoop_cons]
        simp only [hcd, if_neg hlt, hs, he, List.filterMap_cons, hemit]
        rw [ih (acc ++ [mkEvent course line location (computeDate ws w) tsh tsm teh tem])]
        simp

/-- When either time string fails to parse and some character of the
rewritten token is a recognised weekday whose computed date is within
range, the weekday loop raises. -/
theorem dayLoop_error (course line location sts ets : List Char) (ws se : Nat)
    (hp : parse_time sts = none ∨ parse_time ets = none) :
    ∀ td, (∃ c, c ∈ td ∧ ∃ w, charDay c = some w ∧ computeDate ws w ≤ se) →
      ∀ acc, dayLoop course line location sts ets ws se acc td = .error errStrptime := by
  intro td
  induction td with
  | nil =>
    rintro ⟨c, hc, -⟩
    exact absurd hc (List.not_mem_nil c)
  | cons c rest ih =>
    rintro ⟨c0, hc0, w0, hw0, hle0⟩ acc
    cases hcd : charDay c with
    | none =>
      have hc0r : c0 ∈ rest := by
        rcases List.mem_cons.mp hc0 with rfl | h
        · rw [hcd] at hw0
          cases hw0
        · exact h
      rw [dayLoop_cons]
      simp only [hcd]
      exact ih ⟨c0, hc0r, w0, hw0, hle0⟩ acc
    | some w =>
      by_cases hlt : se < computeDate ws w
      · have hc0r : c0 ∈ rest := by
          rcases List.mem_cons.mp hc0 with rfl | h
          · rw [hcd] at hw0
            injection hw0 with hww
            subst hww
            exact absurd hle0 (Nat.not_le.mpr hlt)
          · exact h
        rw [dayLoop_cons]
        simp only [hcd, if_pos hlt]
        exact ih ⟨c0, hc0r, w0, hw0, hle0⟩ acc
      · rw [dayLoop_cons]
        simp only [hcd, if_neg hlt]
        rcases hp with h | h
        · simp only [h]
        · cases hps : parse_time sts with
          | none => simp only [hps]
          | some v =>
            obtain ⟨sh, sm⟩ := v
            simp only [hps, h]

/-! ## Per-line and per-cell facts -/

/-- A line with fewer than 2 pipe-delimited fields is skipped: it yields
no events and no error. -/
theorem processLine_short (course : List Char) (ws se : Nat) (line : List Char)
    (h : ((splitChar '|' line).map pyStrip).length < 2) :
    processLine course ws se line = .ok [] := by
  unfold processLine
  split
  · rfl
  · rfl
  next days times rest heq =>
    rw [heq] at h
    simp only [List.length_cons] at h
    omega

/-- A line with at least 2 fields whose time field does not split on `-`
into exactly two pieces raises the unpacking error. -/
theorem processLine_unpack (course : List Char) (ws se : Nat)
    (line days times : List Char) (rest : List (List Char))
    (hp : (splitChar '|' line).map pyStrip = days :: times :: rest)
    (ht : ((splitChar '-' times).map pyStrip).length ≠ 2) :
    processLine course ws se line = .error errUnpack := by
  simp only [processLine, hp]
  split
  next sts ets heq =>
    rw [heq] at ht
    simp at ht
  next => rfl

/-- A line with at least 2 fields, a two-piece time range one of whose
pieces fails to parse, and at least one recognised in-range weekday,
raises the strptime error. -/
theorem processLine_strptime (course : List Char) (ws se : Nat)
    (line days times : List Char) (rest : List (List Char)) (sts ets : List Char)
    (hp : (splitChar '|' line).map pyStrip = days :: times :: rest)
    (ht : (splitChar '-' times).map pyStrip = [sts, ets])
    (hpar : parse_time sts = none ∨ parse_time ets = none)
    (hin : ∃ c, c ∈ replaceTH days ∧ ∃ w, charDay c = some w ∧ computeDate ws w ≤ se) :
    processLine course ws se line = .error errStrptime := by
  simp only [processLine, hp, ht]
  exact dayLoop_error course line (rest.headD []) sts ets ws se hpar (replaceTH days) hin []

/-- If any line of the cell raises, the whole cell raises. -/
theorem linesLoop_error (course : List Char) (ws se : Nat) :
    ∀ lines : List (List Char),
      (∃ l, l ∈ lines ∧ ∃ e, processLine course ws se l = Except.error e) →
      ∀ acc, isError (linesLoop course ws se acc lines) = true := by
  intro lines
  induction lines with
  | nil =>
    rintro ⟨l, hl, -⟩
    exact absurd hl (List.not_mem_nil l)
  | cons l0 rest ih =>
    rintro ⟨l, hl, e, he⟩ acc
    rw [linesLoop_cons]
    cases hpl : processLine course ws se l0 with
    | error e0 =>
      simp only [hpl]
      rfl
    | ok evs =>
      have hlr : l ∈ rest := by
        rcases List.mem_cons.mp hl with rfl | h
        · rw [hpl] at he
          cases he
        · exact h
      simp only [hpl]
      exact ih ⟨l, hlr, e, he⟩ (acc ++ evs)

/-! ## Same-date invariant (towards C10) -/

theorem dayLoop_dates (course line location sts ets : List Char) (ws se : Nat) :
    ∀ td acc out, (∀ ev ∈ acc, ev.dtstart.date = ev.dtend.date) →
      dayLoop course line location sts ets ws se acc td = .ok out →
      ∀ ev ∈ out, ev.dtstart.date = ev.dtend.date := by
  intro td
  induction td with
  | nil =>
    intro acc out hacc h
    rw [dayLoop_nil] at h
    injection h with h'
    rw [← h']
    exact hacc
  | cons c rest ih =>
    intro acc out hacc h
    rw [dayLoop_cons] at h
    cases hcd : charDay c with
    | none =>
      simp only [hcd] at h
      exact ih acc out hacc h
    | some w =>
      simp only [hcd] at h
      by_cases hlt : se < computeDate ws w
      · rw [if_pos hlt] at h
        exact ih acc out hacc h
      · rw [if_neg hlt] at h
        cases hps : parse_time sts with
        | none =>
          simp only [hps] at h
          exact Except.noConfusion h
        | some v =>
          obtain ⟨sh, sm⟩ := v
          simp only [hps] at h
          cases hpe : parse_time ets with
          | none =>
            simp only [hpe] at h
            exact Except.noConfusion h
          | some v2 =>
            obtain ⟨eh, em⟩ := v2
            simp only [hpe] at h
            refine ih _ out ?_ h
            intro ev hev
            rcases List.mem_append.mp hev with h1 | h2
            · exact hacc ev h1
            · rw [List.mem_singleton.mp h2]
              rfl

theorem processLine_dates (course : List Char) (ws se : Nat) (line : List Char)
    (out : List Event) (h : processLine course ws se line = .ok out) :
    ∀ ev ∈ out, ev.dtstart.date = ev.dtend.date := by
  unfold processLine at h
  split at h
  · injection h with h'
    rw [← h']
    intro ev hev
    cases hev
  · injection h with h'
    rw [← h']
    intro ev hev
    cases hev
  next days times rest heq =>
    split at h
    next sts ets heq2 =>
      refine dayLoop_dates course line (rest.headD []) sts ets ws se
        (replaceTH days) [] out ?_ h
      intro ev hev
      cases hev
    next => exact Except.noConfusion h

theorem linesLoop_dates (course : List Char) (ws se : Nat) :
    ∀ lines acc out, (∀ ev ∈ acc, ev.dtstart.date = ev.dtend.date) →
      linesLoop course ws se acc lines = .ok out →
      ∀ ev ∈ out, ev.dtstart.date = ev.dtend.date := by
  intro lines
  induction lines with
  | nil =>
    intro acc out hacc h
    rw [linesLoop_nil] at h
    injection h with h'
    rw [← h']
    exact hacc
  | cons l rest ih =>
    intro acc out hacc h
    rw [linesLoop_cons] at h
    cases hpl : processLine course ws se l with
    | error e =>
      simp only [hpl] at h
      exact Except.noConfusion h
    | ok evs =>
      simp only [hpl] at h
      refine ih (acc ++ evs) out ?_ h
      intro ev hev
      rcases List.mem_append.mp hev with h1 | h2
      · exact hacc ev h1
      · exact processLine_dates course ws se l evs hpl ev h2

/-! ## Claim C4 -/

/-- C4: with both time strings parsing, the weekday loop over one 7-day
window equals a `filterMap` over the rewritten day token: for each
character, a recognised weekday emits exactly one `MeetingInstance` when
its computed date (`computeDate`, the `(weekday − anchor-weekday) % 7`
offset from the window anchor) is on or before the semester end date,
and emits nothing otherwise — and a skipped pair never halts the
processing of the remaining characters. -/
theorem c4_theorem (course line location sts ets : List Char) (ws se : Nat)
    (tsh tsm teh tem : Nat)
    (hs : parse_time sts = some (tsh, tsm)) (he : parse_time ets = some (teh, tem))
    (td : List Char) :
    dayLoop course line location sts ets ws se [] td =
      .ok (td.filterMap (emitFor course line location ws se tsh tsm teh tem)) := by
  have h := dayLoop_ok course line location sts ets ws se tsh tsm teh tem hs he td []
  simpa using h

/-- Witness for C4: week anchored Monday 2024-01-15 with end date
Wednesday 2024-01-17 and token `MWF` emits Monday and Wednesday but no
Friday instance (Friday would be 2024-01-19, past the end date). -/
theorem c4_witness :
    parse_time "9:00 AM".data = some (9, 0) ∧
    dayLoop "C".data "MWF|9:00 AM-9:50 AM".data [] "9:00 AM".data "9:50 AM".data
        (dayNumber 2024 1 15) (dayNumber 2024 1 17) [] "MWF".data =
      Except.ok ("MWF".data.filterMap
        (emitFor "C".data "MWF|9:00 AM-9:50 AM".data [] (dayNumber 2024 1 15)
          (dayNumber 2024 1 17) 9 0 9 50)) ∧
    "MWF".data.filterMap
        (emitFor "C".data "MWF|9:00 AM-9:50 AM".data [] (dayNumber 2024 1 15)
          (dayNumber 2024 1 17) 9 0 9 50) =
      [mkEvent "C".data "MWF|9:00 AM-9:50 AM".data [] (dayNumber 2024 1 15) 9 0 9 50,
       mkEvent "C".data "MWF|9:00 AM-9:50 AM".data [] (dayNumber 2024 1 17) 9 0 9 50] :=
  ⟨by decide,
   c4_theorem "C".data "MWF|9:00 AM-9:50 AM".data [] "9:00 AM".data "9:50 AM".data
     (dayNumber 2024 1 15) (dayNumber 2024 1 17) 9 0 9 50 (by decide) (by decide)
     "MWF".data,
   by decide⟩

/-! ## Claim C6 -/

/-- C6: in a two-line pattern cell whose first line has fewer than 2
pipe-delimited fields, the first line contributes zero instances and the
whole cell behaves exactly as the second line alone: whatever instances
(or error) the second line produces are the cell's result. -/
theorem c6_theorem (course : List Char) (ws se : Nat) (pat l1 l2 : List Char)
    (hsplit : splitlines pat = [l1, l2])
    (hshort : ((splitChar '|' l1).map pyStrip).length < 2) :
    create_events_from_pattern course pat ws se = processLine course ws se l2 := by
  unfold create_events_from_pattern
  rw [hsplit, linesLoop_cons, processLine_short course ws se l1 hshort]
  show linesLoop course ws se ([] ++ []) [l2] = processLine course ws se l2
  rw [List.append_nil, linesLoop_cons]
  cases h2 : processLine course ws se l2 with
  | error e => simp only [h2]
  | ok evs =>
    simp only [h2]
    rw [linesLoop_nil, List.nil_append]

/-- Witness for C6: the cell `"M\nM|9:00 AM-9:50 AM"` — the one-field
line `"M"` contributes nothing and the well-formed second line still
contributes its instance. -/
theorem c6_witness :
    splitlines "M\nM|9:00 AM-9:50 AM".data = ["M".data, "M|9:00 AM-9:50 AM".data] ∧
    create_events_from_pattern "C".data "M\nM|9:00 AM-9:50 AM".data 0 20 =
      processLine "C".data 0 20 "M|9:00 AM-9:50 AM".data ∧
    processLine "C".data 0 20 "M|9:00 AM-9:50 AM".data =
      Except.ok [mkEvent "C".data "M|9:00 AM-9:50 AM".data [] 5 9 0 9 50] :=
  ⟨by decide,
   c6_theorem "C".data 0 20 "M\nM|9:00 AM-9:50 AM".data "M".data
     "M|9:00 AM-9:50 AM".data (by decide) (by decide),
   by decide⟩

/-! ## Claim C1 (corrected)

The claim says a line with at least 2 pipe-delimited fields whose time
field fails to parse (or lacks a `-`) is skipped without an exception
and the other lines still produce instances.  The script instead lets
the `ValueError` from the tuple unpacking at line 86 (or from `strptime`
at lines 100–101) escape `create_events_from_pattern`, so the whole call
aborts and even well-formed sibling lines produce nothing. -/

/-- Counterexample to C1 as stated: with the malformed line
`"MWF|9:00"` (no `-` in the time field, two fields) present, the
expander raises instead of skipping — it returns an error and emits no
instances at all — although the sibling line alone would have produced
three instances. -/
theorem c1_counterexample :
    create_events_from_pattern "C".data "MWF|9:00\nMWF|9:00 AM-9:50 AM|R1".data 0 20 =
      Except.error errUnpack ∧
    create_events_from_pattern "C".data "MWF|9:00 AM-9:50 AM|R1".data 0 20 =
      Except.ok
        [mkEvent "C".data "MWF|9:00 AM-9:50 AM|R1".data "R1".data 5 9 0 9 50,
         mkEvent "C".data "MWF|9:00 AM-9:50 AM|R1".data "R1".data 0 9 0 9 50,
         mkEvent "C".data "MWF|9:00 AM-9:50 AM|R1".data "R1".data 2 9 0 9 50] := by
  constructor
  · decide
  · decide

/-- C1 as amended: only lines with fewer than 2 pipe-delimited fields
are skipped.  A line with at least 2 fields whose time field does not
split on `-` into exactly two pieces makes the expander raise, and so
does a two-piece time field with an unparseable piece once some
recognised weekday's computed date falls within the semester; in either
case the raise aborts the whole call, so no instances are produced for
any line of the patternText. -/
theorem c1_theorem :
    (∀ course ws se line, ((splitChar '|' line).map pyStrip).length < 2 →
      processLine course ws se line = Except.ok []) ∧
    (∀ course pat ws se line days times rest,
      line ∈ splitlines pat →
      (splitChar '|' line).map pyStrip = days :: times :: rest →
      ((splitChar '-' times).map pyStrip).length ≠ 2 →
      isError (create_events_from_pattern course pat ws se) = true) ∧
    (∀ course pat ws se line days times rest sts ets,
      line ∈ splitlines pat →
      (splitChar '|' line).map pyStrip = days :: times :: rest →
      (splitChar '-' times).map pyStrip = [sts, ets] →
      (parse_time sts = none ∨ parse_time ets = none) →
      (∃ c, c ∈ replaceTH days ∧ ∃ w, charDay c = some w ∧ computeDate ws w ≤ se) →
      isError (create_events_from_pattern course pat ws se) = true) := by
  refine ⟨?_, ?_, ?_⟩
  · intro course ws se line h
    exact processLine_short course ws se line h
  · intro course pat ws se line days times rest hline hp ht
    unfold create_events_from_pattern
    exact linesLoop_error course ws se (splitlines pat)
      ⟨line, hline, errUnpack, processLine_unpack course ws se line days times rest hp ht⟩ []
  · intro course pat ws se line days times rest sts ets hline hp ht hpar hin
    unfold create_events_from_pattern
    exact linesLoop_error course ws se (splitlines pat)
      ⟨line, hline, errStrptime,
        processLine_strptime course ws se line days times rest sts ets hp ht hpar hin⟩ []

/-- Witness for the amended C1 at the counterexample's input. -/
theorem c1_witness :
    isError (create_events_from_pattern "C".data
      "MWF|9:00\nMWF|9:00 AM-9:50 AM|R1".data 0 20) = true :=
  c1_theorem.2.1 "C".data "MWF|9:00\nMWF|9:00 AM-9:50 AM|R1".data 0 20
    "MWF|9:00".data "MWF".data "9:00".data [] (by decide) (by decide) (by decide)

/-! ## Claim C10 -/

/-- C10: every emitted instance combines the single computed event date
with both parsed clock times, so its start and end fall on the same
calendar date — an end clock time earlier than the start one therefore
produces an end before the start, with no next-day rollover. -/
theorem c10_theorem (course pat : List Char) (ws se : Nat) (evs : List Event)
    (h : create_events_from_pattern course pat ws se = .ok evs) :
    ∀ ev ∈ evs, ev.dtstart.date = ev.dtend.date := by
  unfold create_events_from_pattern at h
  refine linesLoop_dates course ws se (splitlines pat) [] evs ?_ h
  intro ev hev
  cases hev

/-- Witness for C10: the line `"M|9:00 PM-1:00 AM"` yields an instance
whose end (1:00) precedes its start (21:00) on the same date 5. -/
theorem c10_witness :
    (mkEvent "C".data "M|9:00 PM-1:00 AM".data [] 5 21 0 1 0).dtstart.date =
      (mkEvent "C".data "M|9:00 PM-1:00 AM".data [] 5 21 0 1 0).dtend.date :=
  c10_theorem "C".data "M|9:00 PM-1:00 AM".data 0 20
    [mkEvent "C".data "M|9:00 PM-1:00 AM".data [] 5 21 0 1 0] (by decide)
    (mkEvent "C".data "M|9:00 PM-1:00 AM".data [] 5 21 0 1 0) (by simp)

/-! ## Claim C3 -/

/-- C3: over startDate 2024-01-08 (a Monday) to endDate 2024-01-19 (a
Friday), the row `"MWF|9:00 AM-9:50 AM|Room 1"` expands to exactly 6
instances, on the Monday/Wednesday/Friday of each of the two weeks
(Jan 8, 10, 12, 15, 17, 19), each running 9:00–9:50 (50 minutes) on its
single date, and none dated after 2024-01-19. -/
theorem c3_theorem :
    weekLoop "CS 101".data "MWF|9:00 AM-9:50 AM|Room 1".data
      (dayNumber 2024 1 8) (dayNumber 2024 1 19) =
    Except.ok
      [mkEvent "CS 101".data "MWF|9:00 AM-9:50 AM|Room 1".data "Room 1".data
         (dayNumber 2024 1 8) 9 0 9 50,
       mkEvent "CS 101".data "MWF|9:00 AM-9:50 AM|Room 1".data "Room 1".data
         (dayNumber 2024 1 10) 9 0 9 50,
       mkEvent "CS 101".data "MWF|9:00 AM-9:50 AM|Room 1".data "Room 1".data
         (dayNumber 2024 1 12) 9 0 9 50,
       mkEvent "CS 101".data "MWF|9:00 AM-9:50 AM|Room 1".data "Room 1".data
         (dayNumber 2024 1 15) 9 0 9 50,
       mkEvent "CS 101".data "MWF|9:00 AM-9:50 AM|Room 1".data "Room 1".data
         (dayNumber 2024 1 17) 9 0 9 50,
       mkEvent "CS 101".data "MWF|9:00 AM-9:50 AM|Room 1".data "Room 1".data
         (dayNumber 2024 1 19) 9 0 9 50] := by
  decide

/-! ## Claim C5 -/

/-- Each of the four canonical column names, fed back through the
classifier, classifies as itself (so an unmatched header can never
accidentally supply a required column by its literal name). -/
theorem classify_required : ∀ r ∈ requiredCols, classifyHeader r = some r := by
  intro r hr
  fin_cases hr <;> decide

/-- C5: when any required semantic column cannot be resolved from the
headers, the loader fails with exactly the list of unresolved canonical
names — and a canonical name is unresolved precisely when no (stripped)
header classifies to it by the substring rules — processing no rows. -/
theorem c5_theorem (cols : List (List Char)) (rows : List RawRow)
    (hm : missingColumns cols ≠ []) :
    loadTable cols rows = .error (missingColumns cols) ∧
    ∀ r, r ∈ missingColumns cols ↔
      (r ∈ requiredCols ∧ ∀ c ∈ cols, classifyHeader (pyStrip c) ≠ some r) := by
  constructor
  · unfold loadTable
    split
    next h => exact absurd h hm
    next m ms h => rw [h]
  · intro r
    unfold missingColumns
    rw [List.mem_filter]
    simp only [decide_eq_true_eq]
    constructor
    · rintro ⟨hreq, hnot⟩
      refine ⟨hreq, ?_⟩
      intro c hc hcl
      apply hnot
      unfold renamedColumns
      rw [List.mem_map]
      refine ⟨c, hc, ?_⟩
      rw [hcl]
      rfl
    · rintro ⟨hreq, hall⟩
      refine ⟨hreq, ?_⟩
      intro hmem
      unfold renamedColumns at hmem
      rw [List.mem_map] at hmem
      obtain ⟨c, hc, hfc⟩ := hmem
      cases hcl : classifyHeader (pyStrip c) with
      | some y =>
        rw [hcl] at hfc
        have hyr : y = r := hfc
        exact hall c hc (by rw [hcl, hyr])
      | none =>
        rw [hcl] at hfc
        have hps : pyStrip c = r := hfc
        have hcr := classify_required r hreq
        rw [← hps] at hcr
        rw [hcl] at hcr
        cases hcr

/-- Witness for C5: headers `Course`, `Meeting Pattern`, `The End`
resolve course, pattern and end columns but nothing matches `start`;
the loader fails listing exactly `Start Date`. -/
theorem c5_witness :
    loadTable ["Course".data, "Meeting Pattern".data, "The End".data] [] =
      Except.error (missingColumns
        ["Course".data, "Meeting Pattern".data, "The End".data]) ∧
    missingColumns ["Course".data, "Meeting Pattern".data, "The End".data] =
      ["Start Date".data] :=
  ⟨And.left <| c5_theorem ["Course".data, "Meeting Pattern".data, "The End".data]
      [] (by decide),
   by decide⟩

/-! ## Claim C8 -/

theorem getLastOpt_cons_firstSome {α : Type} (v : α) (F : List α) :
    (v :: F).getLast? = firstSome F.getLast? (some v) := by
  cases F with
  | nil => rfl
  | cons y ys =>
    rw [List.getLast?_cons_cons,
      List.getLast?_eq_getLast_of_ne_nil (List.cons_ne_nil y ys)]
    rfl

/-- Shape of the forward-fill output at each index, generalised over the
carried value `last`. -/
theorem ffillRows_getD (rows : List RawRow) :
    ∀ last i, i < rows.length →
      ((ffillRows last rows).getD i defaultRow).course =
        (match (rows.getD i defaultRow).course with
         | some v => some v
         | none =>
           firstSome ((rows.take i).filterMap (fun r => r.course)).getLast? last) := by
  induction rows with
  | nil =>
    intro last i h
    simp at h
  | cons r t ih =>
    intro last i h
    cases i with
    | zero =>
      cases hc : r.course with
      | some v => simp [ffillRows, hc]
      | none => simp [ffillRows, hc, firstSome]
    | succ i =>
      have hi : i < t.length := by
        simp only [List.length_cons] at h
        omega
      cases hc : r.course with
      | some v =>
        simp only [ffillRows, hc]
        rw [List.getD_cons_succ, List.getD_cons_succ]
        rw [ih (some v) i hi]
        cases hd : (t.getD i defaultRow).course with
        | some v2 => simp [hd]
        | none =>
          simp only [hd]
          rw [List.take_succ_cons]
          simp only [List.filterMap_cons, hc]
          rw [getLastOpt_cons_firstSome]
          cases hF : ((t.take i).filterMap (fun r => r.course)).getLast? with
          | none => simp [firstSome]
          | some y => simp [firstSome]
      | none =>
        simp only [ffillRows, hc]
        rw [List.getD_cons_succ, List.getD_cons_succ]
        rw [ih last i hi]
        cases hd : (t.getD i defaultRow).course with
        | some v2 => simp [hd]
        | none =>
          simp only [hd]
          rw [List.take_succ_cons]
          simp only [List.filterMap_cons, hc]

/-- C8: after forward-fill, a row with a present course keeps it, and a
row with a missing course holds the value of the nearest preceding row
whose course was present (or stays missing when there is none, as for a
table whose first rows are blank). -/
theorem c8_theorem (rows : List RawRow) (i : Nat) (h : i < rows.length) :
    ((ffillRows none rows).getD i defaultRow).course =
      match (rows.getD i defaultRow).course with
      | some v => some v
      | none => nearestPrevCourse rows i := by
  rw [ffillRows_getD rows none i h]
  cases hd : (rows.getD i defaultRow).course with
  | some v => rfl
  | none =>
    simp only []
    unfold nearestPrevCourse
    cases hF : ((rows.take i).filterMap (fun r => r.course)).getLast? with
    | none => simp [hF, firstSome]
    | some y => simp [hF, firstSome]

/-- Witness for C8: in a two-row table whose second course cell is
missing, the second row inherits the first row's course `"A"`. -/
theorem c8_witness :
    ((ffillRows none
        [⟨some "A".data, none, none, none⟩, ⟨none, none, none, none⟩]).getD 1
          defaultRow).course =
      match (([⟨some "A".data, none, none, none⟩,
               ⟨none, none, none, none⟩] : List RawRow).getD 1 defaultRow).course with
      | some v => some v
      | none =>
        nearestPrevCourse
          [⟨some "A".data, none, none, none⟩, ⟨none, none, none, none⟩] 1 :=
  c8_theorem [⟨some "A".data, none, none, none⟩, ⟨none, none, none, none⟩] 1
    (by decide)
